import Mathlib

/-!
Verification of the neotiles tile compositor and animation scheduler.

The definitions below are a shallow embedding of the Python sources
(`neotiles/pixelcolor.py`, `neotiles/tile.py`, `neotiles/tilemanager.py`).
Python lists are modelled as `List`, Python numbers (int and float) as `ℚ`,
Python list indexing (including negative-index wrap-around and `IndexError`)
as explicit partial lookups, and exceptions as error flags / `Option` error
values threaded through the state.
-/

/-! ## PixelColor (`neotiles/pixelcolor.py`) -/

/-- Embedding of `PixelColor.__init__`: the four channel values as stored on
the instance (`_red`, `_green`, `_blue`, `_white`) and the `normalized`
constructor argument (`none` meaning the flag must be guessed). -/
structure PixelColor where
  _red : ℚ
  _green : ℚ
  _blue : ℚ
  _white : Option ℚ
  normalizedArg : Option Bool
deriving DecidableEq, Repr

namespace PixelColor

/-- Embedding of `PixelColor._normalized` as computed in `__init__`: taken from the
`normalized` argument when supplied, otherwise guessed — normalized unless
some component (with absent white treated as 0) is greater than 1. -/
def is_normalized (c : PixelColor) : Bool :=
  match c.normalizedArg with
  | some b => b
  | none =>
      let white_test := c._white.getD 0
      ! (decide (1 < c._red) || decide (1 < c._green) || decide (1 < c._blue)
         || decide (1 < white_test))

/-- Embedding of `PixelColor._sanitize_component`: normalized values are clipped to
[0, 1]; denormalized values are clipped to [0, 255] and truncated to an
integer (`int(val)`; the value is non-negative at that point, so truncation
toward zero is the floor). -/
def sanitize_component (c : PixelColor) (val : ℚ) : ℚ :=
  if c.is_normalized then
    if val < 0 then 0
    else if 1 < val then 1
    else val
  else
    if val < 0 then 0
    else if 255 < val then 255
    else (⌊val⌋ : ℚ)

/-- The `red` property. -/
def red (c : PixelColor) : ℚ := c.sanitize_component c._red

/-- The `green` property. -/
def green (c : PixelColor) : ℚ := c.sanitize_component c._green

/-- The `blue` property. -/
def blue (c : PixelColor) : ℚ := c.sanitize_component c._blue

/-- The `white` property: `None` when the color is RGB-only. -/
def white (c : PixelColor) : Option ℚ :=
  match c._white with
  | none => none
  | some w => some (c.sanitize_component w)

end PixelColor

/-- The zero color `PixelColor(0, 0, 0, 0)` used by `_clear_pixels` and
`Tile.clear`. -/
def zeroColor : PixelColor := ⟨0, 0, 0, some 0, none⟩

/-- A Python `PixelColor` *instance*: the class defines no `__eq__`, so the
`==` operator compares object identity; we therefore carry the object id
alongside the value. -/
structure PixelColorObj where
  oid : ℕ
  val : PixelColor
deriving DecidableEq, Repr

/-- Python `==` on two `PixelColor` instances.  `PixelColor` defines no
`__eq__`/`__ne__`, so CPython falls back to `object.__eq__`, which is
identity comparison. -/
def pixelColorPyEq (a b : PixelColorObj) : Bool := a.oid == b.oid

/-- Structural equality of the coerced channel values (what the spec calls
"equality ... by channel values after coercion"). -/
def channelValuesEq (a b : PixelColor) : Prop :=
  a.red = b.red ∧ a.green = b.green ∧ a.blue = b.blue ∧
    a.white = b.white ∧ a.is_normalized = b.is_normalized

instance (a b : PixelColor) : Decidable (channelValuesEq a b) := by
  unfold channelValuesEq
  infer_instance

/-! ## Matrix / tile pixel buffers

A pixel buffer (`TileManager._pixels`, `Tile._pixels`) is a Python list of
row lists.  Python indexing `lst[i]` accepts negative indices (wrapping
from the end) and raises `IndexError` otherwise; `pyIdx` computes the
effective non-negative index, `none` meaning `IndexError`. -/

/-- The 2D pixel buffers used by `Tile` and `TileManager`. -/
abbrev Pixels := List (List PixelColor)

/-- Effective index of Python `lst[i]` for a list of length `n`: the index
itself if `0 ≤ i < n`, wrap-around `i + n` if `-n ≤ i < 0`, and `none`
(meaning `IndexError`) otherwise. -/
def pyIdx (n : ℕ) (i : ℤ) : Option ℕ :=
  if 0 ≤ i then
    if i < (n : ℤ) then some i.toNat else none
  else
    if -(n : ℤ) ≤ i then some (i + n).toNat else none

/-- Python `buffer[row][col] = color` on a 2D buffer: `none` models the
`IndexError` raised when either index is out of range (after negative-index
wrap-around). -/
def pySet (px : Pixels) (row col : ℤ) (color : PixelColor) : Option Pixels :=
  match pyIdx px.length row with
  | none => none
  | some r =>
      match pyIdx (px.getD r []).length col with
      | none => none
      | some c => some (px.set r ((px.getD r []).set c color))

/-- Read the pixel at row `r`, column `c` (with `zeroColor` as the
out-of-range default, used only to totalize the read). -/
def pixelAt (px : Pixels) (r c : ℕ) : PixelColor :=
  (px.getD r []).getD c zeroColor

/-- Size of the neopixel matrix (`MatrixSize = namedtuple('cols rows')`). -/
structure MatrixSize where
  cols : ℕ
  rows : ℕ
deriving DecidableEq, Repr

/-- Embedding of `TilePosition = namedtuple('x y')`: top-left placement of a tile. -/
structure TilePosition where
  x : ℤ
  y : ℤ
deriving DecidableEq, Repr

/-- The buffer has `matrix_size.rows` rows of `matrix_size.cols` pixels. -/
def Shape (ms : MatrixSize) (px : Pixels) : Prop :=
  px.length = ms.rows ∧ ∀ i, i < ms.rows → (px.getD i []).length = ms.cols

/-! ## Tile.set_pixel (`neotiles/tile.py`) -/

/-- Embedding of `Tile.set_pixel(pos, color)`: it performs `self._pixels[pos.y][pos.x] =
color` inside `try: ... except IndexError: pass`, so an `IndexError` leaves
the buffer unchanged and no exception escapes.  `pos` is an `(x, y)`
pair. -/
def tile_set_pixel (pixels : Pixels) (pos : ℤ × ℤ) (color : PixelColor) : Pixels :=
  match pySet pixels pos.2 pos.1 color with
  | some px => px
  | none => pixels

/-! ## The compositor: TileManager._set_pixels_from_tiles -/

/-- Embedding of `TileManager._clear_pixels`: a fresh rows × cols buffer of
`PixelColor(0, 0, 0, 0)`. -/
def clear_pixels (ms : MatrixSize) : Pixels :=
  List.replicate ms.rows (List.replicate ms.cols zeroColor)

/-- A registration record (`{'root': ..., 'tile_object': ...}`) as the
compositing pass consumes it: `pixels` is the value of
`tile_object.pixels` read in the pass, i.e. the tile's buffer after the
`draw()` call that the pass makes first when `tile_object.animate` is
true. -/
structure TileReg where
  root : TilePosition
  pixels : List (List PixelColor)

/-- Inner loop of the stamping step: one tile row.  `rowY` is the fixed
matrix row (`root.y + tile_row_num`), `colX` steps through
`root.x + tile_col_num`.  The `Bool` is the error flag: `true` means the
`IndexError` branch raised `NeoTilesError`, with the mutations performed so
far kept (the buffer is updated in place). -/
def stampRow : Pixels → ℤ → ℤ → List PixelColor → Pixels × Bool
  | px, _, _, [] => (px, false)
  | px, rowY, colX, color :: rest =>
      match pySet px rowY colX color with
      | some px' => stampRow px' rowY (colX + 1) rest
      | none => (px, true)

/-- Outer loop of the stamping step: walk the tile's rows, starting at
matrix row `root.y`. -/
def stampRows : Pixels → ℤ → ℤ → List (List PixelColor) → Pixels × Bool
  | px, _, _, [] => (px, false)
  | px, rowY, rootX, row :: rest =>
      match stampRow px rowY rootX row with
      | (px', false) => stampRows px' (rowY + 1) rootX rest
      | (px', true) => (px', true)

/-- Stamp one tile's pixels into the matrix buffer at its root position
(`matrix_row = root.y + tile_row_num`, `matrix_col = root.x +
tile_col_num`). -/
def stampTile (px : Pixels) (root : TilePosition) (grid : List (List PixelColor)) :
    Pixels × Bool :=
  stampRows px root.y root.x grid

/-- Walk all registration records in registration order, stopping at the
first `NeoTilesError` (the exception propagates out of the method). -/
def spftGo : Pixels → List TileReg → Pixels × Bool
  | px, [] => (px, false)
  | px, reg :: rest =>
      match stampTile px reg.root reg.pixels with
      | (px', false) => spftGo px' rest
      | (px', true) => (px', true)

/-- Embedding of `TileManager._set_pixels_from_tiles`: the method first calls
`self._clear_pixels()` — discarding the pre-call buffer `_pre` entirely —
and then stamps every registered tile in registration order.  The result is
the buffer left in `self._pixels` after the call together with the error
flag (`true` iff `NeoTilesError` was raised). -/
def set_pixels_from_tiles (ms : MatrixSize) (_pre : Pixels) (regs : List TileReg) :
    Pixels × Bool :=
  spftGo (clear_pixels ms) regs

/-- Whether a registration record covers matrix cell `(r, c)`. -/
def covers (reg : TileReg) (r c : ℕ) : Bool :=
  decide (reg.root.y ≤ (r : ℤ)) && decide ((r : ℤ) < reg.root.y + reg.pixels.length) &&
    decide (reg.root.x ≤ (c : ℤ)) &&
    decide ((c : ℤ) < reg.root.x + (reg.pixels.getD ((r : ℤ) - reg.root.y).toNat []).length)

/-- The tile pixel a record contributes to matrix cell `(r, c)`. -/
def tilePixelAt (reg : TileReg) (r c : ℕ) : PixelColor :=
  (reg.pixels.getD ((r : ℤ) - reg.root.y).toNat []).getD ((c : ℤ) - reg.root.x).toNat zeroColor

/-- The color the claim predicts for matrix cell `(r, c)`: the pixel of the
latest-registered record covering the cell, `zeroColor` when no record
covers it. -/
def lastCover (regs : List TileReg) (r c : ℕ) : PixelColor :=
  regs.foldl (fun acc reg => if covers reg r c then tilePixelAt reg r c else acc) zeroColor

/-- The record's footprint — offset plus tile size — lies within the
matrix bounds (non-negative root, and every tile row fits). -/
def regInBounds (ms : MatrixSize) (reg : TileReg) : Prop :=
  0 ≤ reg.root.x ∧ 0 ≤ reg.root.y ∧
    reg.root.y + reg.pixels.length ≤ (ms.rows : ℤ) ∧
    ∀ row ∈ reg.pixels, reg.root.x + row.length ≤ (ms.cols : ℤ)

instance (ms : MatrixSize) (reg : TileReg) : Decidable (regInBounds ms reg) := by
  unfold regInBounds
  infer_instance

/-- A record whose footprint overflows the matrix on the positive side and
has at least one pixel in the overflowing region (non-negative root,
nonempty rows). -/
def regOverflows (ms : MatrixSize) (reg : TileReg) : Prop :=
  0 ≤ reg.root.x ∧ 0 ≤ reg.root.y ∧ reg.pixels ≠ [] ∧ (∀ row ∈ reg.pixels, row ≠ []) ∧
    ((ms.rows : ℤ) < reg.root.y + reg.pixels.length ∨
      ∃ row ∈ reg.pixels, (ms.cols : ℤ) < reg.root.x + row.length)

instance (ms : MatrixSize) (reg : TileReg) : Decidable (regOverflows ms reg) := by
  unfold regOverflows
  infer_instance

/-! ## Spec-modelled compositor with the `visible` flag

Modelled from the spec: the `Tile.visible` property and the compositor's
visibility check (§4.3 step 2a: "If the tile is not `visible`, skip
entirely (no draw, no stamp)") are not present in the `tile.py` /
`tilemanager.py` revision under `src/`; only the test suite
(`test_tile.test_visibility`, `test_tilemanager.test_tile_visibility`)
exercises them.  The tile is modelled with its two flags and with `drawn`,
the buffer its `draw()` method would leave behind (step 2b invokes `draw()`
exactly when `animate` is true, and step 2c then reads the buffer). -/
structure VTile where
  visible : Bool
  animate : Bool
  pixels : List (List PixelColor)
  drawn : List (List PixelColor)

/-- Registration record for the spec-modelled compositor. -/
structure VReg where
  root : TilePosition
  tile : VTile

/-- Modelled from the spec (§4.3): walk the records in order; skip a
non-visible tile entirely (no `draw()`, no stamping); otherwise invoke
`draw()` when `animate` is true and stamp the buffer.  The third component
accumulates, in order, the records whose `draw()` was invoked. -/
def spftVGo : Pixels → List VReg → List VReg → Pixels × Bool × List VReg
  | px, [], acc => (px, false, acc.reverse)
  | px, reg :: rest, acc =>
      if reg.tile.visible = false then spftVGo px rest acc
      else
        let acc' := if reg.tile.animate then reg :: acc else acc
        let grid := if reg.tile.animate then reg.tile.drawn else reg.tile.pixels
        match stampTile px reg.root grid with
        | (px', false) => spftVGo px' rest acc'
        | (px', true) => (px', true, acc'.reverse)

/-- Modelled from the spec: the full compositing pass of §4.3 with the
visibility check, returning the final buffer, the error flag, and the list
of records whose `draw()` was invoked. -/
def set_pixels_from_tiles_visible (ms : MatrixSize) (regs : List VReg) :
    Pixels × Bool × List VReg :=
  spftVGo (clear_pixels ms) regs []

/-! ## TileManager.deregister_tile

Tiles define no `__eq__`, so `managed_tile['tile_object'] == tile` is an
identity comparison; registration records are modelled by the identity of
their tile object (a `ℕ`).  The method iterates over the list with
`enumerate` while deleting from it: after `del` at index `i` the iterator
continues at `i + 1` of the shrunk list, so the element that slid into
slot `i` is never examined. -/

/-- One run of `for i, managed_tile in enumerate(self._managed_tiles): if
... == tile: del self._managed_tiles[i]; removed += 1` under CPython
iterator semantics.  `k` is the iterator position; `fuel` bounds the
iteration count (`k` grows by one per step and the list never grows, so an
initial fuel of `l.length` is never exhausted). -/
def dereg_go : List ℕ → ℕ → ℕ → ℕ → ℕ → List ℕ × ℕ
  | l, _, _, removed, 0 => (l, removed)
  | l, k, target, removed, fuel + 1 =>
      if h : k < l.length then
        if l.get ⟨k, h⟩ = target then
          dereg_go (l.eraseIdx k) (k + 1) target (removed + 1) fuel
        else
          dereg_go l (k + 1) target removed fuel
      else
        (l, removed)

/-- Embedding of `TileManager.deregister_tile(tile)`: run the removal loop, then stop
the animation loop (`draw_stop`) when no registrations remain.  Input: the
registration list (as tile identities), whether the animation thread is
running, and the identity of the tile to deregister.  Output: the new
registration list, the new running flag, and the returned removal count. -/
def deregister_tile (regs : List ℕ) (running : Bool) (tile : ℕ) :
    List ℕ × Bool × ℕ :=
  let p := dereg_go regs 0 tile 0 regs.length
  (p.1, if p.1.length = 0 then false else running, p.2)

/-! ## The animation loop: TileManager._animate -/

/-- Embedding of `frame_delay_millis = int(1000 / self._draw_fps)`: Python 3 true
division truncated to an integer (the floor, for positive `draw_fps`). -/
def frame_delay_millis (draw_fps : ℕ) : ℕ :=
  1000 / draw_fps

/-- One iteration of the `while True` loop body in `TileManager._animate`:
when `current_time > next_frame_time` a frame is rendered (the `Bool`) and
`next_frame_time` is reassigned to `current_time + frame_delay_millis`;
otherwise nothing changes. -/
def animate_step (frame_delay now next_frame : ℕ) : Bool × ℕ :=
  if next_frame < now then (true, now + frame_delay) else (false, next_frame)

/-! ## Property setters (`Tile.animate`, `Tile.is_accepting_data`,
`TileManager.brightness`) -/

/-- The Python values fed to the setters: booleans, numbers (int/float),
and non-numeric objects such as strings. -/
inductive PyVal where
  | pybool : Bool → PyVal
  | pynum : ℚ → PyVal
  | pystr : String → PyVal
deriving DecidableEq, Repr

/-- Embedding of the `Tile.animate` setter: `if val is not True and val is not False: raise
ValueError(...)` — only the two bool objects pass the identity tests; the
stored flag is updated only after the check.  Returns the stored value
after the assignment and whether `ValueError` was raised. -/
def animate_setter (old : Bool) (val : PyVal) : Bool × Bool :=
  match val with
  | .pybool b => (b, false)
  | _ => (old, true)

/-- Embedding of the `Tile.is_accepting_data` setter: identical validation to the `animate`
setter. -/
def is_accepting_data_setter (old : Bool) (val : PyVal) : Bool × Bool :=
  match val with
  | .pybool b => (b, false)
  | _ => (old, true)

/-- Embedding of the `TileManager.brightness` setter: inside `try`, values with
`0 <= val <= 255` are stored; others raise `ValueError`; comparing a
non-numeric value raises `TypeError`, which the `except` clause turns into
the same `ValueError`.  Python booleans are numeric (`True == 1`,
`False == 0`), so they pass the range check.  The stored value is only
assigned in the in-range branch. -/
def brightness_setter (old : ℚ) (val : PyVal) : ℚ × Bool :=
  match val with
  | .pybool b => (if b then 1 else 0, false)
  | .pynum q => if 0 ≤ q ∧ q ≤ 255 then (q, false) else (old, true)
  | .pystr _ => (old, true)

/-! ## Concrete colors used in witnesses and counterexamples -/

/-- Denormalized half-red, as in the spec's example scenarios. -/
def red128 : PixelColor := ⟨128, 0, 0, some 0, none⟩

/-- Denormalized half-green. -/
def green128 : PixelColor := ⟨0, 128, 0, some 0, none⟩

/-- Denormalized half-blue. -/
def blue128 : PixelColor := ⟨0, 0, 128, some 0, none⟩

/-- A denormalized grey with a white component. -/
def grey16 : PixelColor := ⟨16, 16, 16, some 16, none⟩

/-! ## Sanitization lemmas for PixelColor -/

/-- On a normalized color, `_sanitize_component` lands in [0, 1]. -/
theorem sanitize_component_norm (c : PixelColor) (h : c.is_normalized = true) (v : ℚ) :
    0 ≤ c.sanitize_component v ∧ c.sanitize_component v ≤ 1 := by
  unfold PixelColor.sanitize_component
  rw [h]
  by_cases h1 : v < 0
  · simp [h1]
  · by_cases h2 : 1 < v
    · simp [h1, h2]
    · push_neg at h1 h2
      simp only [if_true, if_neg (not_lt.mpr h1), if_neg (not_lt.mpr h2)]
      simpa using ⟨h1, h2⟩

/-- On a denormalized color, `_sanitize_component` is an integer
in [0, 255]. -/
theorem sanitize_component_denorm (c : PixelColor) (h : c.is_normalized = false) (v : ℚ) :
    ∃ n : ℤ, c.sanitize_component v = (n : ℚ) ∧ 0 ≤ n ∧ n ≤ 255 := by
  unfold PixelColor.sanitize_component
  rw [h]
  by_cases h1 : v < 0
  · exact ⟨0, by simp [h1], le_refl 0, by norm_num⟩
  · by_cases h2 : 255 < v
    · exact ⟨255, by simp [h1, h2], by norm_num, le_refl _⟩
    · refine ⟨⌊v⌋, by simp [h1, h2], ?_, ?_⟩
      · exact Int.floor_nonneg.mpr (le_of_not_lt h1)
      · have hle : (⌊v⌋ : ℚ) ≤ v := Int.floor_le v
        have h3 : v ≤ 255 := le_of_not_lt h2
        exact_mod_cast hle.trans h3

/-- C7: for every Color whose is-normalized flag is true, each channel
accessor (red, green, blue, and white when present) returns a value in
[0, 1]; for every Color whose flag is false, each accessor returns an
integer in [0, 255] — regardless of the raw constructor input. -/
theorem pixelcolor_accessors_clamped (c : PixelColor) :
    (c.is_normalized = true →
      (0 ≤ c.red ∧ c.red ≤ 1) ∧ (0 ≤ c.green ∧ c.green ≤ 1) ∧
        (0 ≤ c.blue ∧ c.blue ≤ 1) ∧ ∀ w, c.white = some w → 0 ≤ w ∧ w ≤ 1) ∧
    (c.is_normalized = false →
      (∃ n : ℤ, c.red = (n : ℚ) ∧ 0 ≤ n ∧ n ≤ 255) ∧
        (∃ n : ℤ, c.green = (n : ℚ) ∧ 0 ≤ n ∧ n ≤ 255) ∧
        (∃ n : ℤ, c.blue = (n : ℚ) ∧ 0 ≤ n ∧ n ≤ 255) ∧
        ∀ w, c.white = some w → ∃ n : ℤ, w = (n : ℚ) ∧ 0 ≤ n ∧ n ≤ 255) := by
  constructor
  · intro h
    refine ⟨sanitize_component_norm c h _, sanitize_component_norm c h _,
      sanitize_component_norm c h _, ?_⟩
    intro w hw
    cases hcw : c._white with
    | none => rw [PixelColor.white, hcw] at hw; exact absurd hw (by simp)
    | some w0 =>
        rw [PixelColor.white, hcw] at hw
        have : c.sanitize_component w0 = w := by simpa using hw
        rw [← this]
        exact sanitize_component_norm c h w0
  · intro h
    refine ⟨sanitize_component_denorm c h _, sanitize_component_denorm c h _,
      sanitize_component_denorm c h _, ?_⟩
    intro w hw
    cases hcw : c._white with
    | none => rw [PixelColor.white, hcw] at hw; exact absurd hw (by simp)
    | some w0 =>
        rw [PixelColor.white, hcw] at hw
        have : c.sanitize_component w0 = w := by simpa using hw
        rw [← this]
        exact sanitize_component_denorm c h w0

/-- C7 witness: a forced-normalized color with out-of-range inputs has a
red accessor in [0, 1]; an inferred-denormalized color with out-of-range
inputs has an integer green accessor in [0, 255]. -/
theorem pixelcolor_accessors_clamped_witness :
    (0 ≤ (⟨5, 1, 0, some (-2), some true⟩ : PixelColor).red ∧
      (⟨5, 1, 0, some (-2), some true⟩ : PixelColor).red ≤ 1) ∧
    ∃ n : ℤ, (⟨-1, 300, 128, some 16, none⟩ : PixelColor).green = (n : ℚ) ∧
      0 ≤ n ∧ n ≤ 255 :=
  ⟨((pixelcolor_accessors_clamped ⟨5, 1, 0, some (-2), some true⟩).1 (by decide)).1,
   ((pixelcolor_accessors_clamped ⟨-1, 300, 128, some 16, none⟩).2 (by decide)).2.1⟩

/-- C8 counterexample: two distinct PixelColor instances (different object
ids) carrying the very same channel values — equal coerced channels, same
flag — compare unequal under Python `==`, because `PixelColor` defines no
`__eq__` and object equality defaults to identity. -/
theorem pixelcolor_eq_not_structural_cex :
    pixelColorPyEq ⟨0, red128⟩ ⟨1, red128⟩ = false ∧
    channelValuesEq red128 red128 ∧ (0 : ℕ) ≠ 1 := by
  decide

/-- C8 (amended): Python equality on PixelColor instances is identity
comparison — `a == b` is true exactly when the two references are the same
object, regardless of channel values. -/
theorem pixelcolor_eq_is_identity (a b : PixelColorObj) :
    pixelColorPyEq a b = true ↔ a.oid = b.oid := by
  simp [pixelColorPyEq]

/-- C8 witness: the identity characterization applied to a concrete
instance compared with itself. -/
theorem pixelcolor_eq_is_identity_witness :
    pixelColorPyEq ⟨3, red128⟩ ⟨3, red128⟩ = true :=
  (pixelcolor_eq_is_identity ⟨3, red128⟩ ⟨3, red128⟩).mpr rfl

/-- C9: assigning a non-boolean (a string or a number) to `Tile.animate`
or `Tile.is_accepting_data` raises `ValueError` (the spec's
InvalidArgument) and leaves the stored flag unchanged; assigning
`TileManager.brightness` a non-numeric value or a number outside [0, 255]
raises `ValueError` and leaves the stored brightness unchanged. -/
theorem setters_reject_and_keep_value (a d : Bool) (b : ℚ) (s : String) (q : ℚ) :
    animate_setter a (.pystr s) = (a, true) ∧
    animate_setter a (.pynum q) = (a, true) ∧
    is_accepting_data_setter d (.pystr s) = (d, true) ∧
    is_accepting_data_setter d (.pynum q) = (d, true) ∧
    brightness_setter b (.pystr s) = (b, true) ∧
    ((q < 0 ∨ 255 < q) → brightness_setter b (.pynum q) = (b, true)) := by
  refine ⟨rfl, rfl, rfl, rfl, rfl, ?_⟩
  intro h
  show (if 0 ≤ q ∧ q ≤ 255 then ((q, false) : ℚ × Bool) else (b, true)) = (b, true)
  rw [if_neg]
  rcases h with h | h
  · rintro ⟨h1, -⟩
    linarith
  · rintro ⟨-, h2⟩
    linarith

/-- C9 witness: setting `animate` to the string `"yes"` and brightness to
300 both raise and keep the prior values. -/
theorem setters_reject_and_keep_value_witness :
    animate_setter true (.pystr "yes") = (true, true) ∧
    brightness_setter 64 (.pynum 300) = (64, true) :=
  ⟨(setters_reject_and_keep_value true true 64 "yes" 300).1,
   (setters_reject_and_keep_value true true 64 "yes" 300).2.2.2.2.2 (Or.inr (by decide))⟩

/-- C6 counterexample: a loop iteration with `frame_delay = 100`,
`next_frame_time = 100` and `current_time = 250` renders a frame and sets
the next due time to `250 + 100 = 350`, not to the previous due time plus
one increment (`100 + 100 = 200`). -/
theorem animate_step_cex :
    animate_step 100 250 100 = (true, 350) ∧ (350 : ℕ) ≠ 100 + 100 := by
  decide

/-- C6 (amended): whenever the loop renders a frame (current time has
passed the due time), `next_frame_time` is recomputed as the current
wall-clock time plus `frame_delay_millis` — not as the previous due time
plus one increment. -/
theorem animate_step_renders_now_plus_delay (d now next : ℕ) (h : next < now) :
    animate_step d now next = (true, now + d) := by
  simp [animate_step, h]

/-- C6 witness: the amended advance rule at a concrete iteration. -/
theorem animate_step_renders_now_plus_delay_witness :
    animate_step 100 250 100 = (true, 250 + 100) :=
  animate_step_renders_now_plus_delay 100 250 100 (by decide)

/-- C5: evaluating `deregister_tile` at the failing input — the same tile
object registered twice in consecutive slots.  Deleting from the list
while iterating makes the loop skip the record that slides into the freed
slot: only one of the two records is removed, the call returns 1, a
matching record remains, and the animation loop is not stopped. -/
theorem deregister_tile_adjacent_duplicate :
    deregister_tile [7, 7] true 7 = ([7], true, 1) := by
  decide

/-- C2 counterexample: a 1×1 manager whose frame buffer holds `red128`
from before, with one registered 1×1 tile placed out of bounds at
`(5, 5)`.  The pass raises (`true` flag) but the buffer is left as the
freshly cleared zero buffer, not the pre-call buffer `[[red128]]`. -/
theorem set_pixels_from_tiles_not_atomic_cex :
    set_pixels_from_tiles ⟨1, 1⟩ [[red128]] [⟨⟨5, 5⟩, [[blue128]]⟩]
        = ([[zeroColor]], true) ∧
      ([[zeroColor]] : Pixels) ≠ [[red128]] := by
  decide

/-- C3 counterexample: a 2×2 tile and the position `(x, y) = (-1, 0)` —
outside the tile's bounds per the claim.  `set_pixel` does modify the
buffer: Python's negative indexing wraps `_pixels[0][-1]` to the last
column of row 0. -/
theorem tile_set_pixel_negative_wrap_cex :
    tile_set_pixel [[red128, green128], [blue128, grey16]] (-1, 0) blue128
        = [[red128, blue128], [blue128, grey16]] ∧
      ([[red128, blue128], [blue128, grey16]] : Pixels)
        ≠ [[red128, green128], [blue128, grey16]] := by
  decide

/-! ## List indexing lemmas -/

/-- Reading a just-set index returns the new element. -/
theorem getD_set_self {α : Type} (l : List α) (i : ℕ) (a d : α) (h : i < l.length) :
    (l.set i a).getD i d = a := by
  induction l generalizing i with
  | nil => simp at h
  | cons x xs ih =>
      cases i with
      | zero => simp
      | succ n => simpa using ih n (by simpa using h)

/-- Reading any other index is unaffected by `set`. -/
theorem getD_set_ne {α : Type} (l : List α) (i j : ℕ) (a d : α) (h : i ≠ j) :
    (l.set i a).getD j d = l.getD j d := by
  induction l generalizing i j with
  | nil => simp
  | cons x xs ih =>
      cases i with
      | zero =>
          cases j with
          | zero => exact absurd rfl h
          | succ m => simp
      | succ n =>
          cases j with
          | zero => simp
          | succ m => simpa using ih n m (by omega)

/-- Reading `getD` on `replicate`, in range. -/
theorem getD_replicate {α : Type} (n i : ℕ) (a d : α) (h : i < n) :
    (List.replicate n a).getD i d = a := by
  simp [List.getD, h]

/-! ## pyIdx and pySet lemmas -/

/-- A natural index below the length resolves to itself. -/
theorem pyIdx_nat (n i : ℕ) (h : i < n) : pyIdx n (i : ℤ) = some i := by
  unfold pyIdx
  rw [if_pos (by positivity), if_pos (by exact_mod_cast h)]
  simp

/-- An `IndexError` happens exactly outside `[-n, n)`. -/
theorem pyIdx_none_iff (n : ℕ) (i : ℤ) :
    pyIdx n i = none ↔ ((n : ℤ) ≤ i ∨ i < -(n : ℤ)) := by
  unfold pyIdx
  by_cases h0 : 0 ≤ i
  · rw [if_pos h0]
    by_cases h1 : i < (n : ℤ)
    · simp [h1]
      omega
    · simp [h1]
      omega
  · rw [if_neg h0]
    by_cases h1 : -(n : ℤ) ≤ i
    · simp [h1]
      omega
    · simp [h1]
      omega

/-- A resolved index is always within range. -/
theorem pyIdx_some_lt (n : ℕ) (i : ℤ) (r : ℕ) (h : pyIdx n i = some r) : r < n := by
  unfold pyIdx at h
  by_cases h0 : 0 ≤ i
  · rw [if_pos h0] at h
    by_cases h1 : i < (n : ℤ)
    · rw [if_pos h1] at h
      cases h
      omega
    · rw [if_neg h1] at h
      cases h
  · rw [if_neg h0] at h
    by_cases h1 : -(n : ℤ) ≤ i
    · rw [if_pos h1] at h
      cases h
      omega
    · rw [if_neg h1] at h
      cases h

/-- In-range assignment on the 2D buffer, with natural indices. -/
theorem pySet_in_range (px : Pixels) (r c : ℕ) (color : PixelColor)
    (hr : r < px.length) (hc : c < (px.getD r []).length) :
    pySet px (r : ℤ) (c : ℤ) color = some (px.set r ((px.getD r []).set c color)) := by
  unfold pySet
  rw [pyIdx_nat _ _ hr]
  dsimp only
  rw [pyIdx_nat _ _ hc]

/-- A successful assignment never changes the buffer's row count or any
row's length. -/
theorem pySet_shape (px px' : Pixels) (row col : ℤ) (color : PixelColor)
    (h : pySet px row col color = some px') :
    px'.length = px.length ∧ ∀ i, (px'.getD i []).length = (px.getD i []).length := by
  unfold pySet at h
  cases hr : pyIdx px.length row with
  | none => rw [hr] at h; cases h
  | some r =>
      rw [hr] at h
      dsimp only at h
      cases hc : pyIdx (px.getD r []).length col with
      | none => rw [hc] at h; cases h
      | some c =>
          rw [hc] at h
          dsimp only at h
          cases h
          constructor
          · simp
          · intro i
            by_cases hi : r = i
            · subst hi
              rw [getD_set_self _ _ _ _ (pyIdx_some_lt _ _ _ hr)]
              simp
            · rw [getD_set_ne _ _ _ _ _ hi]

/-- Pointwise description of an in-range assignment. -/
theorem pixelAt_set_grid (px : Pixels) (r c : ℕ) (color : PixelColor)
    (hr : r < px.length) (hc : c < (px.getD r []).length) (r' c' : ℕ) :
    pixelAt (px.set r ((px.getD r []).set c color)) r' c' =
      if r' = r ∧ c' = c then color else pixelAt px r' c' := by
  unfold pixelAt
  by_cases h1 : r' = r
  · subst h1
    rw [getD_set_self _ _ _ _ hr]
    by_cases h2 : c' = c
    · subst h2
      rw [getD_set_self _ _ _ _ hc]
      simp
    · rw [getD_set_ne _ _ _ _ _ fun h => h2 h.symm]
      simp [h2]
  · rw [getD_set_ne _ _ _ _ _ fun h => h1 h.symm]
    simp [h1]

/-! ## Stamping lemmas -/

/-- Full description of stamping one tile row whose destination cells all
lie inside the buffer: no error, the shape is unchanged, and exactly the
cells `(r0, c0) .. (r0, c0 + len)` take the row's colors. -/
theorem stampRow_spec (cells : List PixelColor) (px : Pixels) (r0 c0 : ℕ)
    (hr : r0 < px.length) (hc : c0 + cells.length ≤ (px.getD r0 []).length) :
    (stampRow px (r0 : ℤ) (c0 : ℤ) cells).2 = false ∧
    (stampRow px (r0 : ℤ) (c0 : ℤ) cells).1.length = px.length ∧
    (∀ i, ((stampRow px (r0 : ℤ) (c0 : ℤ) cells).1.getD i []).length =
      (px.getD i []).length) ∧
    ∀ r' c' : ℕ, pixelAt (stampRow px (r0 : ℤ) (c0 : ℤ) cells).1 r' c' =
      if r' = r0 ∧ c0 ≤ c' ∧ c' < c0 + cells.length then cells.getD (c' - c0) zeroColor
      else pixelAt px r' c' := by
  induction cells generalizing px c0 with
  | nil =>
      refine ⟨rfl, rfl, fun i => rfl, ?_⟩
      intro r' c'
      simp only [stampRow]
      rw [if_neg]
      rintro ⟨-, h1, h2⟩
      simp at h2
      omega
  | cons color rest ih =>
      have hlen : c0 < (px.getD r0 []).length := by
        rw [List.length_cons] at hc
        omega
      have hset := pySet_in_range px r0 c0 color hr hlen
      unfold stampRow
      rw [hset]
      dsimp only
      have hcast : (c0 : ℤ) + 1 = ((c0 + 1 : ℕ) : ℤ) := by push_cast; ring
      rw [hcast]
      have hshape := pySet_shape px _ _ _ _ hset
      have hr1 : r0 < (px.set r0 ((px.getD r0 []).set c0 color)).length := by
        rw [hshape.1]
        exact hr
      have hc1 : (c0 + 1) + rest.length ≤
          ((px.set r0 ((px.getD r0 []).set c0 color)).getD r0 []).length := by
        rw [hshape.2 r0]
        rw [List.length_cons] at hc
        omega
      obtain ⟨ihErr, ihLen, ihRows, ihPix⟩ := ih _ (c0 + 1) hr1 hc1
      refine ⟨ihErr, by rw [ihLen, hshape.1], fun i => by rw [ihRows i, hshape.2 i], ?_⟩
      intro r' c'
      rw [ihPix r' c']
      by_cases hcase : r' = r0 ∧ c0 + 1 ≤ c' ∧ c' < (c0 + 1) + rest.length
      · rw [if_pos hcase, if_pos ⟨hcase.1, by omega, by simp; omega⟩]
        have hsub : c' - c0 = (c' - (c0 + 1)) + 1 := by omega
        rw [hsub]
        simp
      · rw [if_neg hcase, pixelAt_set_grid px r0 c0 color hr hlen r' c']
        by_cases h2 : r' = r0 ∧ c' = c0
        · rw [if_pos h2, if_pos ⟨h2.1, by omega, by simp; omega⟩]
          have hsub : c' - c0 = 0 := by omega
          rw [hsub]
          simp
        · rw [if_neg h2, if_neg]
          rintro ⟨ha, hb, hcc⟩
          simp at hcc
          rcases Nat.eq_or_lt_of_le hb with heq | hlt
          · exact h2 ⟨ha, heq.symm⟩
          · exact hcase ⟨ha, hlt, by omega⟩

/-- Full description of stamping a whole tile whose destination cells all
lie inside the buffer: no error, shape unchanged, and exactly the tile's
rectangle takes the tile's colors. -/
theorem stampRows_spec (grid : List (List PixelColor)) (px : Pixels) (r0 c0 : ℕ)
    (hr : r0 + grid.length ≤ px.length)
    (hc : ∀ i, i < grid.length →
      c0 + (grid.getD i []).length ≤ (px.getD (r0 + i) []).length) :
    (stampRows px (r0 : ℤ) (c0 : ℤ) grid).2 = false ∧
    (stampRows px (r0 : ℤ) (c0 : ℤ) grid).1.length = px.length ∧
    (∀ i, ((stampRows px (r0 : ℤ) (c0 : ℤ) grid).1.getD i []).length =
      (px.getD i []).length) ∧
    ∀ r' c' : ℕ, pixelAt (stampRows px (r0 : ℤ) (c0 : ℤ) grid).1 r' c' =
      if r0 ≤ r' ∧ r' < r0 + grid.length ∧ c0 ≤ c' ∧
          c' < c0 + (grid.getD (r' - r0) []).length
      then (grid.getD (r' - r0) []).getD (c' - c0) zeroColor
      else pixelAt px r' c' := by
  induction grid generalizing px r0 with
  | nil =>
      refine ⟨rfl, rfl, fun i => rfl, ?_⟩
      intro r' c'
      simp only [stampRows]
      rw [if_neg]
      rintro ⟨h1, h2, -, -⟩
      simp at h2
      omega
  | cons row rest ih =>
      have hr0 : r0 < px.length := by
        rw [List.length_cons] at hr
        omega
      have hc0 : c0 + row.length ≤ (px.getD r0 []).length := by
        have := hc 0 (by simp)
        simpa using this
      obtain ⟨hErr, hLen, hRows, hPix⟩ := stampRow_spec row px r0 c0 hr0 hc0
      have hq : stampRow px (r0 : ℤ) (c0 : ℤ) row =
          ((stampRow px (r0 : ℤ) (c0 : ℤ) row).1, false) := by
        rw [← hErr]
      unfold stampRows
      rw [hq]
      dsimp only
      have hcast : (r0 : ℤ) + 1 = ((r0 + 1 : ℕ) : ℤ) := by push_cast; ring
      rw [hcast]
      have hr1 : (r0 + 1) + rest.length ≤ (stampRow px (r0 : ℤ) (c0 : ℤ) row).1.length := by
        rw [hLen]
        rw [List.length_cons] at hr
        omega
      have hc1 : ∀ i, i < rest.length → c0 + (rest.getD i []).length ≤
          ((stampRow px (r0 : ℤ) (c0 : ℤ) row).1.getD (r0 + 1 + i) []).length := by
        intro i hi
        rw [hRows]
        have := hc (i + 1) (by simp; omega)
        have harr : r0 + (i + 1) = r0 + 1 + i := by omega
        rw [harr] at this
        simpa using this
      obtain ⟨ihErr, ihLen, ihRows, ihPix⟩ := ih _ (r0 + 1) hr1 hc1
      refine ⟨ihErr, by rw [ihLen, hLen], fun i => by rw [ihRows i, hRows i], ?_⟩
      intro r' c'
      rw [ihPix r' c']
      by_cases hcase : r0 + 1 ≤ r' ∧ r' < (r0 + 1) + rest.length ∧ c0 ≤ c' ∧
          c' < c0 + (rest.getD (r' - (r0 + 1)) []).length
      · rw [if_pos hcase]
        have hidx : r' - r0 = (r' - (r0 + 1)) + 1 := by omega
        rw [if_pos]
        · rw [hidx]
          simp
        · refine ⟨by omega, by simp; omega, hcase.2.2.1, ?_⟩
          rw [hidx]
          simpa using hcase.2.2.2
      · rw [if_neg hcase]
        rw [hPix r' c']
        by_cases h2 : r' = r0 ∧ c0 ≤ c' ∧ c' < c0 + row.length
        · rw [if_pos h2]
          have hidx : r' - r0 = 0 := by omega
          rw [if_pos]
          · rw [hidx]
            simp
          · refine ⟨by omega, by simp; omega, h2.2.1, ?_⟩
            rw [hidx]
            simpa using h2.2.2
        · rw [if_neg h2, if_neg]
          rintro ⟨ha, hb, hcc, hd⟩
          rcases Nat.eq_or_lt_of_le ha with heq | hlt
          · refine h2 ⟨heq.symm, hcc, ?_⟩
            have hidx : r' - r0 = 0 := by omega
            rw [hidx] at hd
            simpa using hd
          · refine hcase ⟨by omega, by simp at hb; omega, hcc, ?_⟩
            have hidx : r' - r0 = (r' - (r0 + 1)) + 1 := by omega
            rw [hidx] at hd
            simpa using hd

/-- Reading `getD` out of range returns the default. -/
theorem getD_oob {α : Type} (l : List α) (i : ℕ) (d : α) (h : l.length ≤ i) :
    l.getD i d = d := by
  induction l generalizing i with
  | nil => simp
  | cons x xs ih =>
      cases i with
      | zero => simp at h
      | succ n => simpa using ih n (by simpa using h)

/-- An in-range `getD` is a member of the list. -/
theorem getD_mem {α : Type} (l : List α) (i : ℕ) (d : α) (h : i < l.length) :
    l.getD i d ∈ l := by
  induction l generalizing i with
  | nil => simp at h
  | cons x xs ih =>
      cases i with
      | zero => simp
      | succ n => exact List.mem_cons_of_mem x (ih n (by simpa using h))

/-- Evaluating `pyIdx` at a natural index, both outcomes. -/
theorem pyIdx_nat_cases (n i : ℕ) :
    pyIdx n (i : ℤ) = if i < n then some i else none := by
  unfold pyIdx
  rw [if_pos (by positivity)]
  by_cases h : i < n
  · rw [if_pos (by exact_mod_cast h), if_pos h]
    simp
  · rw [if_neg (by exact_mod_cast h), if_neg h]

/-- A successful natural-index assignment pins down both bounds and the
resulting buffer. -/
theorem pySet_nat_bounds (px : Pixels) (r0 c0 : ℕ) (color : PixelColor) (px' : Pixels)
    (h : pySet px (r0 : ℤ) (c0 : ℤ) color = some px') :
    r0 < px.length ∧ c0 < (px.getD r0 []).length ∧
      px' = px.set r0 ((px.getD r0 []).set c0 color) := by
  unfold pySet at h
  rw [pyIdx_nat_cases] at h
  by_cases h1 : r0 < px.length
  · rw [if_pos h1] at h
    dsimp only at h
    rw [pyIdx_nat_cases] at h
    by_cases h2 : c0 < (px.getD r0 []).length
    · rw [if_pos h2] at h
      dsimp only at h
      cases h
      exact ⟨h1, h2, rfl⟩
    · rw [if_neg h2] at h
      cases h
  · rw [if_neg h1] at h
    cases h

/-- Stamping one tile row never changes the buffer's shape, error or
not. -/
theorem stampRow_shape (cells : List PixelColor) (px : Pixels) (rowY colX : ℤ) :
    (stampRow px rowY colX cells).1.length = px.length ∧
    ∀ i, ((stampRow px rowY colX cells).1.getD i []).length = (px.getD i []).length := by
  induction cells generalizing px colX with
  | nil => exact ⟨rfl, fun i => rfl⟩
  | cons color rest ih =>
      unfold stampRow
      cases hset : pySet px rowY colX color with
      | none => exact ⟨rfl, fun i => rfl⟩
      | some px1 =>
          dsimp only
          have hs := pySet_shape px px1 rowY colX color hset
          obtain ⟨ihL, ihR⟩ := ih px1 (colX + 1)
          exact ⟨ihL.trans hs.1, fun i => (ihR i).trans (hs.2 i)⟩

/-- Stamping a whole tile never changes the buffer's shape, error or
not. -/
theorem stampRows_shape (grid : List (List PixelColor)) (px : Pixels) (rowY rootX : ℤ) :
    (stampRows px rowY rootX grid).1.length = px.length ∧
    ∀ i, ((stampRows px rowY rootX grid).1.getD i []).length = (px.getD i []).length := by
  induction grid generalizing px rowY with
  | nil => exact ⟨rfl, fun i => rfl⟩
  | cons row rest ih =>
      unfold stampRows
      obtain ⟨rl, rs⟩ := stampRow_shape row px rowY rootX
      cases hst : stampRow px rowY rootX row with
      | mk px1 e =>
          rw [hst] at rl rs
          cases e with
          | false =>
              dsimp only
              obtain ⟨il, ir⟩ := ih px1 (rowY + 1)
              exact ⟨il.trans rl, fun i => (ir i).trans (rs i)⟩
          | true => exact ⟨rl, rs⟩

/-- The whole compositing walk never changes the buffer's shape, error or
not. -/
theorem spftGo_shape (regs : List TileReg) (px : Pixels) :
    (spftGo px regs).1.length = px.length ∧
    ∀ i, ((spftGo px regs).1.getD i []).length = (px.getD i []).length := by
  induction regs generalizing px with
  | nil => exact ⟨rfl, fun i => rfl⟩
  | cons reg rest ih =>
      unfold spftGo
      obtain ⟨rl, rs⟩ := stampRows_shape reg.pixels px reg.root.y reg.root.x
      cases hst : stampTile px reg.root reg.pixels with
      | mk px1 e =>
          rw [stampTile] at hst
          rw [hst] at rl rs
          cases e with
          | false =>
              dsimp only
              obtain ⟨il, ir⟩ := ih px1
              exact ⟨il.trans rl, fun i => (ir i).trans (rs i)⟩
          | true => exact ⟨rl, rs⟩

/-- The freshly cleared buffer has the matrix shape. -/
theorem clear_pixels_shape (ms : MatrixSize) : Shape ms (clear_pixels ms) := by
  constructor
  · simp [clear_pixels]
  · intro i hi
    rw [clear_pixels, getD_replicate _ _ _ _ hi]
    simp

/-- Shape is carried along row-length-preserving rewrites. -/
theorem shape_of_preserved (ms : MatrixSize) (px px' : Pixels) (hpx : Shape ms px)
    (hl : px'.length = px.length)
    (hr : ∀ i, (px'.getD i []).length = (px.getD i []).length) : Shape ms px' := by
  exact ⟨hl.trans hpx.1, fun i hi => (hr i).trans (hpx.2 i hi)⟩

/-- A cleared buffer reads `zeroColor` everywhere (also at out-of-range
coordinates, where the read default is `zeroColor` too). -/
theorem pixelAt_clear_pixels (ms : MatrixSize) (r c : ℕ) :
    pixelAt (clear_pixels ms) r c = zeroColor := by
  unfold pixelAt clear_pixels
  by_cases hr : r < ms.rows
  · rw [getD_replicate _ _ _ _ hr]
    by_cases hc : c < ms.cols
    · rw [getD_replicate _ _ _ _ hc]
    · rw [getD_oob _ _ _ (by simpa using not_lt.mp hc)]
  · rw [getD_oob (List.replicate ms.rows (List.replicate ms.cols zeroColor)) r []
      (by simpa using not_lt.mp hr)]
    simp

/-- Unfolding `covers` at a non-negatively rooted record, in natural-number terms. -/
theorem covers_iff (reg : TileReg) (r c r0 c0 : ℕ)
    (hy : reg.root.y = (r0 : ℤ)) (hx : reg.root.x = (c0 : ℤ)) :
    covers reg r c = true ↔
      (r0 ≤ r ∧ r < r0 + reg.pixels.length ∧ c0 ≤ c ∧
        c < c0 + (reg.pixels.getD (r - r0) []).length) := by
  unfold covers
  rw [hy, hx]
  simp only [Bool.and_eq_true, decide_eq_true_eq]
  constructor
  · rintro ⟨⟨⟨h1, h2⟩, h3⟩, h4⟩
    have hr0 : r0 ≤ r := by exact_mod_cast h1
    have he : ((r : ℤ) - (r0 : ℤ)).toNat = r - r0 := by omega
    rw [he] at h4
    exact ⟨hr0, by exact_mod_cast h2, by exact_mod_cast h3, by exact_mod_cast h4⟩
  · rintro ⟨h1, h2, h3, h4⟩
    have he : ((r : ℤ) - (r0 : ℤ)).toNat = r - r0 := by omega
    rw [he]
    exact ⟨⟨⟨by exact_mod_cast h1, by exact_mod_cast h2⟩, by exact_mod_cast h3⟩,
      by exact_mod_cast h4⟩

/-- Unfolding `tilePixelAt` at a non-negatively rooted record, in natural-number
terms. -/
theorem tilePixelAt_eq (reg : TileReg) (r c r0 c0 : ℕ)
    (hy : reg.root.y = (r0 : ℤ)) (hx : reg.root.x = (c0 : ℤ))
    (h1 : r0 ≤ r) (h3 : c0 ≤ c) :
    tilePixelAt reg r c = (reg.pixels.getD (r - r0) []).getD (c - c0) zeroColor := by
  unfold tilePixelAt
  rw [hy, hx]
  have e1 : ((r : ℤ) - (r0 : ℤ)).toNat = r - r0 := by omega
  have e2 : ((c : ℤ) - (c0 : ℤ)).toNat = c - c0 := by omega
  rw [e1, e2]

/-- The compositing walk over in-bounds records: no error, and each matrix
cell ends as the fold of the records' contributions over its starting
value. -/
theorem spftGo_spec (regs : List TileReg) (ms : MatrixSize) (px : Pixels)
    (hpx : Shape ms px) (h : ∀ reg ∈ regs, regInBounds ms reg) :
    (spftGo px regs).2 = false ∧
    ∀ r c, r < ms.rows → c < ms.cols →
      pixelAt (spftGo px regs).1 r c =
        regs.foldl (fun acc reg => if covers reg r c then tilePixelAt reg r c else acc)
          (pixelAt px r c) := by
  induction regs generalizing px with
  | nil => exact ⟨rfl, fun r c _ _ => rfl⟩
  | cons reg rest ih =>
      obtain ⟨hx0, hy0, hyb, hxb⟩ := h reg (by simp)
      have hy : reg.root.y = (reg.root.y.toNat : ℤ) := (Int.toNat_of_nonneg hy0).symm
      have hx : reg.root.x = (reg.root.x.toNat : ℤ) := (Int.toNat_of_nonneg hx0).symm
      have hr' : reg.root.y.toNat + reg.pixels.length ≤ px.length := by
        rw [hpx.1]
        omega
      have hc' : ∀ i, i < reg.pixels.length →
          reg.root.x.toNat + (reg.pixels.getD i []).length ≤
            (px.getD (reg.root.y.toNat + i) []).length := by
        intro i hi
        have hrow := hxb (reg.pixels.getD i []) (getD_mem reg.pixels i [] hi)
        rw [hpx.2 (reg.root.y.toNat + i) (by omega)]
        omega
      obtain ⟨sErr, sLen, sRows, sPix⟩ :=
        stampRows_spec reg.pixels px reg.root.y.toNat reg.root.x.toNat hr' hc'
      have hq : stampTile px reg.root reg.pixels =
          ((stampRows px (reg.root.y.toNat : ℤ) (reg.root.x.toNat : ℤ) reg.pixels).1,
            false) := by
        rw [stampTile, hy, hx, ← sErr]
        exact Prod.mk.eta.symm
      unfold spftGo
      rw [hq]
      dsimp only
      have hshape1 : Shape ms
          (stampRows px (reg.root.y.toNat : ℤ) (reg.root.x.toNat : ℤ) reg.pixels).1 :=
        shape_of_preserved ms px _ hpx sLen sRows
      obtain ⟨ihErr, ihPix⟩ := ih _ hshape1 (fun g hg => h g (List.mem_cons_of_mem reg hg))
      refine ⟨ihErr, ?_⟩
      intro r c hr hc
      rw [ihPix r c hr hc, List.foldl_cons]
      congr 1
      rw [sPix r c]
      by_cases hnat : reg.root.y.toNat ≤ r ∧ r < reg.root.y.toNat + reg.pixels.length ∧
          reg.root.x.toNat ≤ c ∧
          c < reg.root.x.toNat + (reg.pixels.getD (r - reg.root.y.toNat) []).length
      · rw [if_pos hnat, if_pos ((covers_iff reg r c _ _ hy hx).mpr hnat)]
        rw [tilePixelAt_eq reg r c _ _ hy hx hnat.1 hnat.2.2.1]
      · rw [if_neg hnat, if_neg]
        intro hcov
        exact hnat ((covers_iff reg r c _ _ hy hx).mp hcov)

/-- C1: when every registered tile's footprint (offset plus tile size)
lies within the matrix bounds, the compositing pass succeeds and the frame
buffer equals the zero buffer everywhere outside the tiles' rectangles,
while every covered cell holds the pixel of the latest-registered tile
covering it (`lastCover` is exactly that fold over registration order,
starting from `zeroColor`). -/
theorem set_pixels_from_tiles_correct (ms : MatrixSize) (pre : Pixels)
    (regs : List TileReg) (h : ∀ reg ∈ regs, regInBounds ms reg) :
    (set_pixels_from_tiles ms pre regs).2 = false ∧
    ∀ r c, r < ms.rows → c < ms.cols →
      pixelAt (set_pixels_from_tiles ms pre regs).1 r c = lastCover regs r c := by
  obtain ⟨hErr, hPix⟩ := spftGo_spec regs ms (clear_pixels ms) (clear_pixels_shape ms) h
  refine ⟨hErr, fun r c hr hc => ?_⟩
  unfold set_pixels_from_tiles
  rw [hPix r c hr hc]
  unfold lastCover
  congr 1
  exact pixelAt_clear_pixels ms r c

/-- C1 witness: two overlapping 1×1 tiles on a 1×1 matrix — the pass
succeeds and the overlapped cell shows the later-registered tile's pixel
(`lastCover` evaluates to `green128`). -/
theorem set_pixels_from_tiles_correct_witness :
    (set_pixels_from_tiles ⟨1, 1⟩ []
        [⟨⟨0, 0⟩, [[red128]]⟩, ⟨⟨0, 0⟩, [[green128]]⟩]).2 = false ∧
    pixelAt (set_pixels_from_tiles ⟨1, 1⟩ []
        [⟨⟨0, 0⟩, [[red128]]⟩, ⟨⟨0, 0⟩, [[green128]]⟩]).1 0 0 = green128 :=
  ⟨(set_pixels_from_tiles_correct ⟨1, 1⟩ []
      [⟨⟨0, 0⟩, [[red128]]⟩, ⟨⟨0, 0⟩, [[green128]]⟩] (by decide)).1,
    ((set_pixels_from_tiles_correct ⟨1, 1⟩ []
      [⟨⟨0, 0⟩, [[red128]]⟩, ⟨⟨0, 0⟩, [[green128]]⟩] (by decide)).2 0 0
        (by decide) (by decide)).trans (by decide)⟩

/-- C10: the frame buffer's dimensions are invariant — the buffer produced
at construction (`_clear_pixels`) and the buffer left by any compositing
pass, successful or aborted by a placement error, always has exactly
`matrix_size.rows` rows of `matrix_size.cols` pixels. -/
theorem pixels_shape_invariant (ms : MatrixSize) :
    Shape ms (clear_pixels ms) ∧
    ∀ pre regs, Shape ms (set_pixels_from_tiles ms pre regs).1 := by
  refine ⟨clear_pixels_shape ms, fun pre regs => ?_⟩
  obtain ⟨hl, hr⟩ := spftGo_shape regs (clear_pixels ms)
  exact shape_of_preserved ms (clear_pixels ms) _ (clear_pixels_shape ms) hl hr

/-- C10 witness: the invariant applied to a failing pass — the 1×1 buffer
shape survives the out-of-bounds tile of the C2 scenario. -/
theorem pixels_shape_invariant_witness :
    Shape ⟨1, 1⟩ (set_pixels_from_tiles ⟨1, 1⟩ [[red128]] [⟨⟨5, 5⟩, [[blue128]]⟩]).1 :=
  (pixels_shape_invariant ⟨1, 1⟩).2 [[red128]] [⟨⟨5, 5⟩, [[blue128]]⟩]


/-- A tile row that stamps without error fits inside its destination
buffer row. -/
theorem stampRow_ok_bounds (cells : List PixelColor) (px : Pixels) (r0 c0 : ℕ)
    (hok : (stampRow px (r0 : ℤ) (c0 : ℤ) cells).2 = false) (hne : cells ≠ []) :
    r0 < px.length ∧ c0 + cells.length ≤ (px.getD r0 []).length := by
  induction cells generalizing px c0 with
  | nil => exact absurd rfl hne
  | cons color rest ih =>
      unfold stampRow at hok
      cases hset : pySet px (r0 : ℤ) (c0 : ℤ) color with
      | none =>
          rw [hset] at hok
          cases hok
      | some px1 =>
          rw [hset] at hok
          dsimp only at hok
          obtain ⟨hb1, hb2, hb3⟩ := pySet_nat_bounds px r0 c0 color px1 hset
          cases rest with
          | nil =>
              refine ⟨hb1, ?_⟩
              simp only [List.length_cons, List.length_nil]
              omega
          | cons c2 rest2 =>
              have hcast : (c0 : ℤ) + 1 = ((c0 + 1 : ℕ) : ℤ) := by push_cast; ring
              rw [hcast] at hok
              obtain ⟨ih1, ih2⟩ := ih px1 (c0 + 1) hok (by simp)
              have hs := pySet_shape px px1 (r0 : ℤ) (c0 : ℤ) color hset
              rw [hs.2 r0] at ih2
              refine ⟨hb1, ?_⟩
              simp only [List.length_cons] at ih2 ⊢
              omega

/-- A tile that stamps without error — all rows nonempty — fits inside the
matrix on both axes. -/
theorem stampRows_ok_bounds (grid : List (List PixelColor)) (ms : MatrixSize)
    (px : Pixels) (hpx : Shape ms px) (r0 c0 : ℕ)
    (hok : (stampRows px (r0 : ℤ) (c0 : ℤ) grid).2 = false)
    (hne : ∀ row ∈ grid, row ≠ []) (hg : grid ≠ []) :
    r0 + grid.length ≤ ms.rows ∧ ∀ row ∈ grid, c0 + row.length ≤ ms.cols := by
  induction grid generalizing px r0 with
  | nil => exact absurd rfl hg
  | cons row rest ih =>
      unfold stampRows at hok
      cases hst : stampRow px (r0 : ℤ) (c0 : ℤ) row with
      | mk px1 e =>
          rw [hst] at hok
          cases e with
          | true => cases hok
          | false =>
              dsimp only at hok
              have hrow : (stampRow px (r0 : ℤ) (c0 : ℤ) row).2 = false := by
                rw [hst]
              obtain ⟨hb1, hb2⟩ :=
                stampRow_ok_bounds row px r0 c0 hrow (hne row (by simp))
              have hr0 : r0 < ms.rows := by
                rw [hpx.1] at hb1
                exact hb1
              have hcol : c0 + row.length ≤ ms.cols := by
                rw [hpx.2 r0 hr0] at hb2
                exact hb2
              have hshape1 : Shape ms px1 := by
                obtain ⟨sl, sr⟩ := stampRow_shape row px (r0 : ℤ) (c0 : ℤ)
                rw [hst] at sl sr
                exact shape_of_preserved ms px px1 hpx sl sr
              cases rest with
              | nil =>
                  refine ⟨by simpa using hr0, ?_⟩
                  intro row' hrow'
                  rcases List.mem_cons.mp hrow' with heq | hmem
                  · subst heq
                    exact hcol
                  · cases hmem
              | cons g2 rest2 =>
                  have hcast : (r0 : ℤ) + 1 = ((r0 + 1 : ℕ) : ℤ) := by push_cast; ring
                  rw [hcast] at hok
                  obtain ⟨ihr, ihc⟩ := ih px1 hshape1 (r0 + 1) hok
                    (fun row' hmem => hne row' (List.mem_cons_of_mem row hmem)) (by simp)
                  refine ⟨by simp only [List.length_cons] at ihr ⊢; omega, ?_⟩
                  intro row' hrow'
                  rcases List.mem_cons.mp hrow' with heq | hmem
                  · subst heq
                    exact hcol
                  · exact ihc row' hmem

/-- Stamping a record whose footprint overflows the matrix raises. -/
theorem stampTile_overflow_error (ms : MatrixSize) (px : Pixels) (hpx : Shape ms px)
    (reg : TileReg) (hbad : regOverflows ms reg) :
    (stampTile px reg.root reg.pixels).2 = true := by
  obtain ⟨hx0, hy0, hne0, hnerows, hover⟩ := hbad
  have hy : reg.root.y = (reg.root.y.toNat : ℤ) := (Int.toNat_of_nonneg hy0).symm
  have hx : reg.root.x = (reg.root.x.toNat : ℤ) := (Int.toNat_of_nonneg hx0).symm
  cases hflag : (stampTile px reg.root reg.pixels).2 with
  | true => rfl
  | false =>
      exfalso
      rw [stampTile, hy, hx] at hflag
      obtain ⟨hrows, hcols⟩ := stampRows_ok_bounds reg.pixels ms px hpx
        reg.root.y.toNat reg.root.x.toNat hflag hnerows hne0
      rcases hover with hov | ⟨row, hrm, hov⟩
      · rw [hy] at hov
        have : (reg.root.y.toNat : ℤ) + reg.pixels.length ≤ ms.rows := by
          exact_mod_cast hrows
        omega
      · have := hcols row hrm
        rw [hx] at hov
        have h2 : (reg.root.x.toNat : ℤ) + row.length ≤ ms.cols := by
          exact_mod_cast this
        omega

/-- The compositing walk raises as soon as some record overflows the
matrix. -/
theorem spftGo_overflow_error (regs : List TileReg) (ms : MatrixSize) (px : Pixels)
    (hpx : Shape ms px) (h : ∃ reg ∈ regs, regOverflows ms reg) :
    (spftGo px regs).2 = true := by
  induction regs generalizing px with
  | nil =>
      obtain ⟨reg, hm, -⟩ := h
      cases hm
  | cons reg rest ih =>
      unfold spftGo
      cases hst : stampTile px reg.root reg.pixels with
      | mk px1 e =>
          cases e with
          | true => rfl
          | false =>
              dsimp only
              obtain ⟨bad, hm, hbad⟩ := h
              rcases List.mem_cons.mp hm with heq | hmem
              · subst heq
                have := stampTile_overflow_error ms px hpx bad hbad
                rw [hst] at this
                cases this
              · have hshape1 : Shape ms px1 := by
                  obtain ⟨sl, sr⟩ := stampRows_shape reg.pixels px reg.root.y reg.root.x
                  rw [stampTile] at hst
                  rw [hst] at sl sr
                  exact shape_of_preserved ms px px1 hpx sl sr
                exact ih px1 hshape1 ⟨bad, hmem, hbad⟩

/-- C2 (amended): when some registered tile has a non-negative offset, a
nonempty pixel buffer, and a footprint exceeding the matrix bounds, the
compositing pass raises `NeoTilesError`; but the pass is not atomic — the
frame buffer is unconditionally re-cleared and partially stamped, and the
post-call buffer is independent of (so in general different from) the
pre-call buffer. -/
theorem set_pixels_from_tiles_overflow (ms : MatrixSize) (pre : Pixels)
    (regs : List TileReg) (h : ∃ reg ∈ regs, regOverflows ms reg) :
    (set_pixels_from_tiles ms pre regs).2 = true ∧
    ∀ pre', set_pixels_from_tiles ms pre regs = set_pixels_from_tiles ms pre' regs :=
  ⟨spftGo_overflow_error regs ms (clear_pixels ms) (clear_pixels_shape ms) h,
   fun _ => rfl⟩

/-- C2 witness: the amended statement at the concrete out-of-bounds
scenario. -/
theorem set_pixels_from_tiles_overflow_witness :
    (set_pixels_from_tiles ⟨1, 1⟩ [[red128]] [⟨⟨5, 5⟩, [[blue128]]⟩]).2 = true :=
  (set_pixels_from_tiles_overflow ⟨1, 1⟩ [[red128]] [⟨⟨5, 5⟩, [[blue128]]⟩]
    ⟨⟨⟨5, 5⟩, [[blue128]]⟩, by simp, by decide⟩).1

/-- C3 (amended): `Tile.set_pixel` never raises.  A position whose `x` or
`y` falls outside Python's indexable range `[-len, len)` leaves the buffer
untouched; but a position inside that range — including *negative*
coordinates down to `-len`, which wrap to the end of the row/column — does
write the pixel at the wrapped cell, leaving every other cell unchanged. -/
theorem tile_set_pixel_semantics (px : Pixels) (x y : ℤ) (color : PixelColor) :
    (((px.length : ℤ) ≤ y ∨ y < -(px.length : ℤ)) →
      tile_set_pixel px (x, y) color = px) ∧
    (∀ r : ℕ, pyIdx px.length y = some r →
      (((px.getD r []).length : ℤ) ≤ x ∨ x < -((px.getD r []).length : ℤ) →
        tile_set_pixel px (x, y) color = px)) ∧
    (∀ r c : ℕ, pyIdx px.length y = some r → pyIdx (px.getD r []).length x = some c →
      pixelAt (tile_set_pixel px (x, y) color) r c = color ∧
      ∀ r' c' : ℕ, ¬(r' = r ∧ c' = c) →
        pixelAt (tile_set_pixel px (x, y) color) r' c' = pixelAt px r' c') := by
  refine ⟨?_, ?_, ?_⟩
  · intro hy
    unfold tile_set_pixel pySet
    rw [(pyIdx_none_iff px.length y).mpr hy]
  · intro r hr hx
    unfold tile_set_pixel pySet
    rw [hr]
    dsimp only
    rw [(pyIdx_none_iff (px.getD r []).length x).mpr hx]
  · intro r c hr hc
    have hres : tile_set_pixel px (x, y) color =
        px.set r ((px.getD r []).set c color) := by
      unfold tile_set_pixel pySet
      rw [hr]
      dsimp only
      rw [hc]
    have hrlt : r < px.length := pyIdx_some_lt _ _ _ hr
    have hclt : c < (px.getD r []).length := pyIdx_some_lt _ _ _ hc
    rw [hres]
    constructor
    · rw [pixelAt_set_grid px r c color hrlt hclt r c, if_pos ⟨rfl, rfl⟩]
    · intro r' c' hne
      rw [pixelAt_set_grid px r c color hrlt hclt r' c', if_neg hne]

/-- C3 witness: the amended behavior at concrete inputs — a far
out-of-range position is silently ignored, and the wrapped negative
position `(x, y) = (-1, 0)` on a 1×2 tile writes the last cell of row 0. -/
theorem tile_set_pixel_semantics_witness :
    tile_set_pixel [[red128, green128]] (5, 0) blue128 = [[red128, green128]] ∧
    pixelAt (tile_set_pixel [[red128, green128]] (-1, 0) blue128) 0 1 = blue128 :=
  ⟨(tile_set_pixel_semantics [[red128, green128]] 5 0 blue128).2.1 0 (by decide)
      (Or.inl (by decide)),
   ((tile_set_pixel_semantics [[red128, green128]] (-1) 0 blue128).2.2 0 1
      (by decide) (by decide)).1⟩

/-- The spec-modelled walk ignores invisible records entirely: running it
on a record list and on the list with the invisible records filtered out
produces identical results (same buffer, same error, same draw-invocation
list), and every record whose `draw()` was invoked is visible. -/
theorem spftVGo_filter (regs : List VReg) (px : Pixels) (acc : List VReg)
    (hacc : ∀ g ∈ acc, g.tile.visible = true) :
    spftVGo px regs acc = spftVGo px (regs.filter fun g => g.tile.visible) acc ∧
    ∀ g ∈ (spftVGo px regs acc).2.2, g.tile.visible = true := by
  induction regs generalizing px acc with
  | nil =>
      refine ⟨rfl, ?_⟩
      intro g hg
      simp only [spftVGo, List.mem_reverse] at hg
      exact hacc g hg
  | cons reg rest ih =>
      cases hv : reg.tile.visible with
      | false =>
          have hfilter : (reg :: rest).filter (fun g => g.tile.visible) =
              rest.filter (fun g => g.tile.visible) := by
            simp [List.filter, hv]
          rw [hfilter]
          have hstep : spftVGo px (reg :: rest) acc = spftVGo px rest acc := by
            simp only [spftVGo, hv, if_true]
          rw [hstep]
          exact ih px acc hacc
      | true =>
          have hfilter : (reg :: rest).filter (fun g => g.tile.visible) =
              reg :: rest.filter (fun g => g.tile.visible) := by
            simp [List.filter, hv]
          rw [hfilter]
          have hacc' : ∀ g ∈ (if reg.tile.animate then reg :: acc else acc),
              g.tile.visible = true := by
            intro g hg
            cases ha : reg.tile.animate with
            | true =>
                rw [ha] at hg
                rcases List.mem_cons.mp hg with heq | hmem
                · subst heq
                  exact hv
                · exact hacc g hmem
            | false =>
                rw [ha] at hg
                exact hacc g hg
          have hstep : ∀ l, spftVGo px (reg :: l) acc =
              match stampTile px reg.root
                  (if reg.tile.animate then reg.tile.drawn else reg.tile.pixels) with
              | (px', false) => spftVGo px' l (if reg.tile.animate then reg :: acc else acc)
              | (px', true) => (px', true,
                  (if reg.tile.animate then reg :: acc else acc).reverse) := by
            intro l
            simp only [spftVGo, hv, Bool.true_eq_false, if_false]
          rw [hstep rest, hstep (rest.filter fun g => g.tile.visible)]
          cases hst : stampTile px reg.root
              (if reg.tile.animate then reg.tile.drawn else reg.tile.pixels) with
          | mk px1 e =>
              cases e with
              | false =>
                  dsimp only
                  exact ih px1 _ hacc'
              | true =>
                  dsimp only
                  refine ⟨rfl, ?_⟩
                  intro g hg
                  simp only [List.mem_reverse] at hg
                  exact hacc' g hg

/-- C4 (spec-modelled): the compositor skips every registered tile whose
`visible` flag is false — the whole pass behaves exactly as if the
invisible records were absent (no pixels stamped), and no invisible tile's
`draw()` is ever invoked. -/
theorem compositor_skips_invisible (ms : MatrixSize) (regs : List VReg) :
    set_pixels_from_tiles_visible ms regs =
      set_pixels_from_tiles_visible ms (regs.filter fun g => g.tile.visible) ∧
    ∀ g ∈ (set_pixels_from_tiles_visible ms regs).2.2, g.tile.visible = true := by
  unfold set_pixels_from_tiles_visible
  exact spftVGo_filter regs (clear_pixels ms) [] (by simp)

/-- C4 witness: the spec-modelled pass over a single invisible tile equals
the pass over no tiles at all — nothing of the invisible tile is drawn or
stamped. -/
theorem compositor_skips_invisible_witness :
    set_pixels_from_tiles_visible ⟨1, 1⟩
        [⟨⟨0, 0⟩, ⟨false, true, [[red128]], [[red128]]⟩⟩] =
      set_pixels_from_tiles_visible ⟨1, 1⟩ [] :=
  (compositor_skips_invisible ⟨1, 1⟩
    [⟨⟨0, 0⟩, ⟨false, true, [[red128]], [[red128]]⟩⟩]).1
